import Mathlib

/-!
Shallow embedding of the job-tracker pipeline (ML_Logic_Complete.py).

External effects are modelled as explicit parameters:
- the spaCy entity recogniser becomes a list of labelled entities for the
  given resume text, plus a Boolean saying whether the model loaded;
- the google search call becomes a function from query strings to either a
  ProviderError or a finite list of candidate URLs;
- the Selenium page fetch becomes a function from URLs to an optional page
  text (none models a raised browser or unexpected error, caught at the
  per-URL scope);
- the HTTP publish step becomes a function from the result map to an
  abstract outcome (status code or connection error).

Machine strings are modelled by Lean strings over their character lists;
the Python substring test, str.lower and str.split are modelled
character-wise (adequate for the ASCII content this program handles).
-/

/-- Pattern pat matches at the head of hay (auxiliary for the substring test). -/
def matchesAt : List Char → List Char → Bool
  | [], _ => true
  | _ :: _, [] => false
  | p :: ps, h :: hs => p == h && matchesAt ps hs

/-- pat occurs as a contiguous run somewhere inside hay. -/
def occursIn (pat hay : List Char) : Bool :=
  match hay with
  | [] => matchesAt pat []
  | _ :: hs => matchesAt pat hay || occursIn pat hs

/-- Python substring test: needle in haystack. -/
def containsSub (haystack needle : String) : Bool :=
  occursIn needle.data haystack.data

/-- Python str.lower, modelled character-wise. -/
def pyLower (s : String) : String := ⟨s.data.map Char.toLower⟩

/-- Whitespace test used by the Python str.split model. -/
def isWS (c : Char) : Bool := c.isWhitespace

/-- Python str.split with no arguments: the maximal runs of
non-whitespace characters, in order.  Used by the keyword length filter
through len of the split. -/
def pyTokens : List Char → List (List Char)
  | [] => []
  | c :: cs =>
    if isWS c then pyTokens cs
    else (c :: cs.takeWhile (fun d => !isWS d)) :: pyTokens (cs.dropWhile (fun d => !isWS d))
termination_by cs => cs.length
decreasing_by
  · simp
  · have h : (List.dropWhile (fun d => !isWS d) hs).length ≤ hs.length := by
      induction hs with
      | nil => simp
      | cons a as ih =>
        rw [List.dropWhile_cons]
        by_cases hp : (!isWS a) = true
        · simp only [hp, if_true]
          exact Nat.le_succ_of_le ih
        · simp [hp]
    simp
    omega

/-- Spec-side predicate: the term has internal whitespace, that is, a
whitespace character with a non-whitespace character somewhere before it
and somewhere after it. -/
def HasInternalWS (cs : List Char) : Prop :=
  ∃ l w r, cs = l ++ w :: r ∧ isWS w = true ∧
    (∃ a ∈ l, isWS a = false) ∧ (∃ b ∈ r, isWS b = false)

/-- A named entity produced by the NLP capability: label and surface text. -/
structure Ent where
  label : String
  text : String

/-- Entity labels retained by the extractor. -/
def entity_labels : List String := ["ORG", "GPE", "PRODUCT", "JOB"]

/-- The entity-based keywords: texts of the entities whose label is retained. -/
def general_keywords (ents : List Ent) : List String :=
  (ents.filter (fun e => entity_labels.contains e.label)).map Ent.text

/-- The curated technical skill vocabulary, verbatim from the source. -/
def tech_skills : List String :=
  ["Python", "JavaScript", "React", "Angular", "Vue", "Node.js",
   "SQL", "MongoDB", "AWS", "Azure", "Docker", "Kubernetes",
   "Machine Learning", "Data Science", "API", "FastAPI"]

/-- Skills found by case-insensitive substring scan over the resume text. -/
def found_skills (resume_text : String) : List String :=
  tech_skills.filter (fun skill => containsSub (pyLower resume_text) (pyLower skill))

/-- The deduplicated union of entity keywords and found skills
(list set of general_keywords plus found_skills in the source). -/
def all_keywords (ents : List Ent) (resume_text : String) : List String :=
  (general_keywords ents ++ found_skills resume_text).dedup

/-- The final keyword filter from the source:
len of kw.split() greater than 1, or len of kw greater than 3. -/
def keyword_filter (kw : String) : Bool :=
  decide (1 < (pyTokens kw.data).length) || decide (3 < kw.length)

/-- extract_keywords_from_resume.  nlpAvailable models whether the spaCy
model loaded at startup; ents models the entities the model reports on the
given resume text. -/
def extract_keywords_from_resume (nlpAvailable : Bool) (ents : List Ent)
    (resume_text : String) : List String :=
  if nlpAvailable = false then ["Fallback", "NLP Error"]
  else (all_keywords ents resume_text).filter keyword_filter

/-- is_recent_job_posting, verbatim control flow from the source: fixed
phrases first, then the 1..7 day-count loop over the two pattern forms. -/
def is_recent_job_posting (text : String) : Bool :=
  let text_lower := pyLower text
  if containsSub text_lower "just posted" || containsSub text_lower "new" ||
      containsSub text_lower "24 hours" then
    true
  else if (List.range' 1 7).any (fun i =>
      containsSub text_lower (toString i ++ " day") ||
      containsSub text_lower (toString i ++ "d")) then
    true
  else
    false

/-- The hiring-signal vocabulary, verbatim from the source. -/
def hiring_signals : List String := ["apply now", "vacancy", "hiring", "job", "careers"]

/-- Per-URL body of the scrape loop: fetch the page (none models a raised
and caught browser or unexpected error, handled as skip), lower-case the
page text, then accept when a hiring signal occurs and the text is recent. -/
def url_accepted (fetchF : String → Option String) (url : String) : Bool :=
  match fetchF url with
  | none => false
  | some page_source =>
    let text := pyLower page_source
    (hiring_signals.any (fun word => containsSub text word)) && is_recent_job_posting text

/-- Per-keyword body of the scrape loop: issue the search for the keyword
plus the fixed suffix; a raised search error is caught and leaves the
initialised empty list; otherwise the accepted URLs are appended in order,
which is a filter of the yielded sequence. -/
def process_keyword (searchF : String → Except Unit (List String))
    (fetchF : String → Option String) (keyword : String) : List String :=
  match searchF (keyword ++ " job") with
  | Except.error _ => []
  | Except.ok urls => urls.filter (url_accepted fetchF)

/-- Python dict assignment on an insertion-ordered association list:
replace the value in place when the key exists, else append the pair. -/
def dictSet (d : List (String × List String)) (k : String) (v : List String) :
    List (String × List String) :=
  if (d.map Prod.fst).contains k then
    d.map (fun p => if p.1 = k then (k, v) else p)
  else d ++ [(k, v)]

/-- Python dict lookup on the association list. -/
def dictGet (d : List (String × List String)) (k : String) : Option (List String) :=
  (d.find? (fun p => p.1 == k)).map Prod.snd

/-- Outcome of one scrape_jobs call: the result dict and how many times the
browser driver was released. -/
structure ScrapeRun where
  results : List (String × List String)
  driverQuits : Nat

/-- One iteration of the keyword loop: initialise the slot for the keyword
and fill it with the outcome of its processing. -/
def scrapeStep (searchF : String → Except Unit (List String))
    (fetchF : String → Option String) :
    List (String × List String) → String → List (String × List String) :=
  fun d keyword => dictSet d keyword (process_keyword searchF fetchF keyword)

/-- scrape_jobs.  driverInitOk models whether webdriver.Chrome raised; the
source returns the empty dict in that case without a driver to release.
Otherwise every keyword slot is initialised and filled by the per-keyword
body, and driver.quit() runs once after the loop. -/
def scrape_jobs (driverInitOk : Bool) (searchF : String → Except Unit (List String))
    (fetchF : String → Option String) (keywords : List String) : ScrapeRun :=
  if driverInitOk = false then { results := [], driverQuits := 0 }
  else
    { results := keywords.foldl (scrapeStep searchF fetchF) []
      driverQuits := 1 }

/-- The JSON body returned by the endpoint: a status and a message. -/
structure Response where
  status : String
  message : String
deriving DecidableEq

/-- Outcome of the HTTP POST to the Go server. -/
inductive PublishOutcome where
  | httpStatus (code : Nat)
  | requestError (msg : String)

/-- The environment of external capabilities the endpoint runs against. -/
structure Env where
  nlpAvailable : Bool
  entsOf : String → List Ent
  driverInitOk : Bool
  searchF : String → Except Unit (List String)
  fetchF : String → Option String
  publish : List (String × List String) → PublishOutcome

/-- Steps 2 to 4 of the endpoint: extract keywords, scrape, publish. -/
def run_pipeline (env : Env) (resume_text : String) : Response :=
  let keywords := extract_keywords_from_resume env.nlpAvailable (env.entsOf resume_text) resume_text
  let fetched_jobs := (scrape_jobs env.driverInitOk env.searchF env.fetchF keywords).results
  match env.publish fetched_jobs with
  | PublishOutcome.httpStatus 200 =>
    { status := "success", message := "Job data sent to Go server." }
  | PublishOutcome.httpStatus _ =>
    { status := "error", message := "Failed to send data to Go server." }
  | PublishOutcome.requestError e =>
    { status := "error", message := "Connection error: " ++ e }

/-- Python str.split on the dot character: pieces between dots, empty
pieces kept, as Python does for a separator argument. -/
def dotSplit : List Char → List (List Char)
  | [] => [[]]
  | c :: cs =>
    if c = '.' then [] :: dotSplit cs
    else
      match dotSplit cs with
      | [] => [[c]]
      | t :: ts => (c :: t) :: ts

/-- The declared extension: last dot-separated piece of the filename,
lower-cased, as in filename.split and index -1 in the source. -/
def file_ext (filename : String) : String :=
  pyLower ⟨(dotSplit filename.data).getLastD []⟩

/-- recommend_jobs.  pdfParse and docxParse model the outcome of the
respective try blocks (none models a raised and caught parse error);
rawDecode models bytes.decode utf-8, whose failure is not caught in the
source and escapes the endpoint, modelled as Except.error. -/
def recommend_jobs (env : Env) (filename : String)
    (pdfParse docxParse rawDecode : Option String) : Except Unit Response :=
  let file_type := file_ext filename
  if file_type = "pdf" then
    match pdfParse with
    | none => Except.ok { status := "error", message := "Failed to parse PDF content." }
    | some resume_text => Except.ok (run_pipeline env resume_text)
  else if file_type = "docx" then
    match docxParse with
    | none => Except.ok { status := "error", message := "Failed to parse DOCX content." }
    | some resume_text => Except.ok (run_pipeline env resume_text)
  else
    match rawDecode with
    | none => Except.error ()
    | some resume_text => Except.ok (run_pipeline env resume_text)

/-! Concrete instances used by witnesses and counterexamples. -/

/-- A search provider that succeeds with no results. -/
def searchNone : String → Except Unit (List String) := fun _ => Except.ok []

/-- A fetcher whose every fetch raises (and is caught). -/
def fetchNone : String → Option String := fun _ => none

/-- A search provider that yields the same URL twice. -/
def searchDup : String → Except Unit (List String) :=
  fun _ => Except.ok ["http://u", "http://u"]

/-- A fetcher that always renders a relevant, recent page. -/
def fetchHire : String → Option String :=
  fun _ => some "We are hiring! Apply now. Posted 2 days ago."

/-- A search provider raising for the Rust query and succeeding for others. -/
def searchRG : String → Except Unit (List String) :=
  fun q => if q = "Rust job" then Except.error () else Except.ok ["http://go1"]

/-- A fetcher rendering a relevant, recent page for every URL. -/
def fetchRG : String → Option String :=
  fun _ => some "Careers: hiring now. Just posted."

/-- Five candidate URLs for the fetch-failure scenario. -/
def urls5 : List String := ["u1", "u2", "u3", "u4", "u5"]

/-- A search provider yielding the five candidate URLs. -/
def search5 : String → Except Unit (List String) := fun _ => Except.ok urls5

/-- A fetcher failing on the second and fourth URL, rendering an accepted
page for the first and third, and an irrelevant page for the fifth. -/
def fetch5 : String → Option String := fun u =>
  if u = "u2" || u = "u4" then none
  else if u = "u5" then some "nothing to see here"
  else some "We are hiring! Just posted."

/-- A fully successful environment with no entities and no search results. -/
def envOk : Env :=
  { nlpAvailable := true
    entsOf := fun _ => []
    driverInitOk := true
    searchF := searchNone
    fetchF := fetchNone
    publish := fun _ => PublishOutcome.httpStatus 200 }

/-! Helper lemmas on the substring test. -/

theorem matchesAt_iff (p h : List Char) : matchesAt p h = true ↔ ∃ t, h = p ++ t := by
  induction p generalizing h with
  | nil => simp [matchesAt]
  | cons a as ih =>
    cases h with
    | nil => simp [matchesAt]
    | cons b bs =>
      simp only [matchesAt, Bool.and_eq_true, beq_iff_eq, ih, List.cons_append,
        List.cons.injEq]
      constructor
      · rintro ⟨rfl, t, rfl⟩
        exact ⟨t, rfl, rfl⟩
      · rintro ⟨t, rfl, rfl⟩
        exact ⟨rfl, t, rfl⟩

theorem occursIn_iff (p h : List Char) : occursIn p h = true ↔ ∃ s t, h = s ++ p ++ t := by
  induction h with
  | nil =>
    simp only [occursIn, matchesAt_iff]
    constructor
    · rintro ⟨t, ht⟩
      exact ⟨[], t, ht⟩
    · rintro ⟨s, t, hst⟩
      rcases List.append_eq_nil.mp (List.append_eq_nil.mp hst.symm).1 with ⟨rfl, rfl⟩
      exact ⟨t, hst⟩
  | cons c hs ih =>
    simp only [occursIn, Bool.or_eq_true, matchesAt_iff, ih]
    constructor
    · rintro (⟨t, ht⟩ | ⟨s, t, rfl⟩)
      · exact ⟨[], t, by simpa using ht⟩
      · exact ⟨c :: s, t, rfl⟩
    · rintro ⟨s, t, heq⟩
      cases s with
      | nil => exact Or.inl ⟨t, by simpa using heq⟩
      | cons x s2 =>
        rw [List.cons_append, List.cons_append] at heq
        injection heq with h1 h2
        exact Or.inr ⟨s2, t, h2⟩

theorem occursIn_map (f : Char → Char) (p h : List Char) (hp : occursIn p h = true) :
    occursIn (p.map f) (h.map f) = true := by
  rw [occursIn_iff] at hp ⊢
  obtain ⟨s, t, rfl⟩ := hp
  exact ⟨s.map f, t.map f, by simp⟩

theorem containsSub_pyLower (s pat : String)
    (hfix : pat.data.map Char.toLower = pat.data)
    (h : containsSub s pat = true) : containsSub (pyLower s) pat = true := by
  have h2 := occursIn_map Char.toLower pat.data s.data h
  rw [hfix] at h2
  exact h2

/-! Helper lemmas on the dict model. -/

theorem find?_set_map (d : List (String × List String)) (k : String) (v : List String) :
    (d.map (fun p => if p.1 = k then (k, v) else p)).find? (fun p => p.1 == k)
      = (d.find? (fun p => p.1 == k)).map (fun _ => (k, v)) := by
  induction d with
  | nil => rfl
  | cons p d ih =>
    by_cases hp : p.1 = k
    · simp [List.find?_cons, hp]
    · simp [List.find?_cons, hp, ih]

theorem find?_set_map_other (d : List (String × List String)) (k k2 : String)
    (v : List String) (hne : k2 ≠ k) :
    (d.map (fun p => if p.1 = k then (k, v) else p)).find? (fun p => p.1 == k2)
      = d.find? (fun p => p.1 == k2) := by
  induction d with
  | nil => rfl
  | cons p d ih =>
    by_cases hp : p.1 = k
    · have hne2 : ¬ (k == k2) = true := by
        simp only [beq_iff_eq]
        exact fun h => hne h.symm
      have hne3 : ¬ (p.1 == k2) = true := by
        simp only [beq_iff_eq, hp]
        exact fun h => hne h.symm
      simp [List.find?_cons, hp, hne2, hne3, ih]
    · by_cases hp2 : p.1 = k2
      · have hk2k : ¬ k2 = k := hne
        simp [List.find?_cons, hp, hp2, hk2k]
      · simp [List.find?_cons, hp, hp2, ih]

theorem find?_none_of_not_contains (d : List (String × List String)) (k : String)
    (h : (d.map Prod.fst).contains k = false) :
    d.find? (fun p => p.1 == k) = none := by
  rw [List.find?_eq_none]
  intro p hp
  simp only [beq_iff_eq]
  intro hk
  have hmem : k ∈ d.map Prod.fst := List.mem_map.mpr ⟨p, hp, hk⟩
  have hc : (d.map Prod.fst).contains k = true :=
    List.contains_iff_exists_mem_beq.mpr ⟨k, hmem, by simp⟩
  rw [h] at hc
  cases hc

theorem dictGet_dictSet_self (d : List (String × List String)) (k : String) (v : List String) :
    dictGet (dictSet d k v) k = some v := by
  unfold dictGet dictSet
  by_cases h : (d.map Prod.fst).contains k
  · rw [if_pos h, find?_set_map]
    have hsome : (d.find? (fun p => p.1 == k)).isSome := by
      rw [List.find?_isSome]
      rcases List.contains_iff_exists_mem_beq.mp h with ⟨a, ha, hbeq⟩
      rcases List.mem_map.mp ha with ⟨p, hp, hfst⟩
      refine ⟨p, hp, ?_⟩
      simp only [beq_iff_eq] at hbeq ⊢
      rw [hfst, hbeq]
    rcases Option.isSome_iff_exists.mp hsome with ⟨p, hp⟩
    rw [hp]
    rfl
  · rw [if_neg h, List.find?_append, find?_none_of_not_contains d k (by simpa using h)]
    simp [List.find?_cons]

theorem dictGet_dictSet_other (d : List (String × List String)) (k k2 : String)
    (v : List String) (hne : k2 ≠ k) :
    dictGet (dictSet d k v) k2 = dictGet d k2 := by
  unfold dictGet dictSet
  by_cases h : (d.map Prod.fst).contains k
  · rw [if_pos h, find?_set_map_other d k k2 v hne]
  · rw [if_neg h, List.find?_append]
    have : List.find? (fun p => p.1 == k2) [(k, v)] = none := by
      simp only [List.find?_cons, List.find?_nil]
      have : ¬ (k == k2) = true := by
        simp only [beq_iff_eq]
        exact fun hh => hne hh.symm
      simp [this]
    rw [this, Option.or_none]

theorem map_fst_dictSet (d : List (String × List String)) (k : String) (v : List String) :
    (dictSet d k v).map Prod.fst
      = if (d.map Prod.fst).contains k then d.map Prod.fst else d.map Prod.fst ++ [k] := by
  unfold dictSet
  by_cases h : (d.map Prod.fst).contains k
  · rw [if_pos h, if_pos h, List.map_map]
    refine List.map_congr_left ?_
    intro p _
    by_cases hp : p.1 = k
    · simp [hp]
    · simp [hp]
  · rw [if_neg h, if_neg h]
    simp

theorem scrapeFold_get (searchF : String → Except Unit (List String))
    (fetchF : String → Option String) (keywords : List String) (k : String) :
    ∀ d, dictGet (keywords.foldl (scrapeStep searchF fetchF) d) k
      = if k ∈ keywords then some (process_keyword searchF fetchF k) else dictGet d k := by
  induction keywords with
  | nil => intro d; simp
  | cons kw rest ih =>
    intro d
    rw [List.foldl_cons, ih]
    by_cases hk : k ∈ rest
    · rw [if_pos hk, if_pos (List.mem_cons.mpr (Or.inr hk))]
    · by_cases he : k = kw
      · subst he
        rw [if_neg hk, if_pos (List.mem_cons.mpr (Or.inl rfl))]
        exact dictGet_dictSet_self d k (process_keyword searchF fetchF k)
      · have : ¬ k ∈ kw :: rest := by
          rw [List.mem_cons]
          rintro (h | h)
          · exact he h
          · exact hk h
        rw [if_neg hk, if_neg this]
        exact dictGet_dictSet_other d kw k (process_keyword searchF fetchF kw) he

theorem scrapeFold_keys (searchF : String → Except Unit (List String))
    (fetchF : String → Option String) (keywords : List String) :
    ∀ d : List (String × List String),
      (∀ k, k ∈ (keywords.foldl (scrapeStep searchF fetchF) d).map Prod.fst ↔
        k ∈ d.map Prod.fst ∨ k ∈ keywords)
      ∧ ((d.map Prod.fst).Nodup →
        ((keywords.foldl (scrapeStep searchF fetchF) d).map Prod.fst).Nodup) := by
  induction keywords with
  | nil => intro d; simp
  | cons kw rest ih =>
    intro d
    rw [List.foldl_cons]
    obtain ⟨ihm, ihn⟩ := ih (scrapeStep searchF fetchF d kw)
    have hkeys : (scrapeStep searchF fetchF d kw).map Prod.fst
        = if (d.map Prod.fst).contains kw then d.map Prod.fst else d.map Prod.fst ++ [kw] :=
      map_fst_dictSet d kw (process_keyword searchF fetchF kw)
    constructor
    · intro k
      rw [ihm k, hkeys]
      by_cases h : (d.map Prod.fst).contains kw
      · rw [if_pos h]
        have hkw : kw ∈ d.map Prod.fst := by
          rcases List.contains_iff_exists_mem_beq.mp h with ⟨a, ha, hbeq⟩
          simp only [beq_iff_eq] at hbeq
          rwa [hbeq]
        constructor
        · rintro (h2 | h2)
          · exact Or.inl h2
          · exact Or.inr (List.mem_cons.mpr (Or.inr h2))
        · rintro (h2 | h2)
          · exact Or.inl h2
          · rcases List.mem_cons.mp h2 with h3 | h3
            · subst h3; exact Or.inl hkw
            · exact Or.inr h3
      · rw [if_neg h]
        simp only [List.mem_append, List.mem_singleton, List.mem_cons]
        tauto
    · intro hnd
      apply ihn
      rw [hkeys]
      by_cases h : (d.map Prod.fst).contains kw
      · rwa [if_pos h]
      · rw [if_neg h]
        have hkw : kw ∉ d.map Prod.fst := by
          intro hmem
          have : (d.map Prod.fst).contains kw = true :=
            List.contains_iff_exists_mem_beq.mpr ⟨kw, hmem, by simp⟩
          exact h this
        simp [List.nodup_append, hnd, hkw]

/-- C9: whenever the browser driver initialises, the scrape coordinator
releases it exactly once, for every search and fetch behaviour, including
behaviours that raise for every keyword and every URL. -/
theorem C9_driver_quit_once (searchF : String → Except Unit (List String))
    (fetchF : String → Option String) (keywords : List String) :
    (scrape_jobs true searchF fetchF keywords).driverQuits = 1 := by
  simp [scrape_jobs]

/-- C2 (amended): whenever the browser driver initialises, the returned map
has exactly one entry per keyword of the passed set: its key list has no
duplicates, a key occurs in it exactly when it is a passed keyword, and
every passed keyword is mapped to the outcome of its processing (possibly
the empty sequence). -/
theorem C2_one_entry_per_keyword (searchF : String → Except Unit (List String))
    (fetchF : String → Option String) (keywords : List String) :
    (((scrape_jobs true searchF fetchF keywords).results.map Prod.fst).Nodup)
    ∧ (∀ k, k ∈ (scrape_jobs true searchF fetchF keywords).results.map Prod.fst ↔
        k ∈ keywords)
    ∧ (∀ k, k ∈ keywords →
        dictGet (scrape_jobs true searchF fetchF keywords).results k
          = some (process_keyword searchF fetchF k)) := by
  have hres : (scrape_jobs true searchF fetchF keywords).results
      = keywords.foldl (scrapeStep searchF fetchF) [] := by
    simp [scrape_jobs]
  obtain ⟨hm, hn⟩ := scrapeFold_keys searchF fetchF keywords []
  refine ⟨?_, ?_, ?_⟩
  · rw [hres]
    exact hn (by simp)
  · intro k
    rw [hres, hm k]
    simp
  · intro k hk
    rw [hres, scrapeFold_get searchF fetchF keywords k [], if_pos hk]

/-- C2 as stated fails on the source: when the browser driver fails to
initialise, scrape_jobs returns the empty dict, which has no entry for the
passed keyword Go. -/
theorem C2_cex :
    ("Go" ∈ ["Go"]) ∧
      dictGet (scrape_jobs false searchNone fetchNone ["Go"]).results "Go" = none := by
  constructor
  · decide
  · rfl

/-- C2 witness: on a concrete run the keyword Go is present and mapped to
the empty sequence. -/
theorem C2_witness :
    dictGet (scrape_jobs true searchNone fetchNone ["Go"]).results "Go" = some [] := by
  have h := (C2_one_entry_per_keyword searchNone fetchNone ["Go"]).2.2 "Go" (by decide)
  exact h.trans (by rfl)

/-- C5: if the search call raises for a keyword of the set, that keyword
keeps its initialised empty sequence, and every keyword of the set is still
processed: the run does not abort. -/
theorem C5_search_failure_isolated (searchF : String → Except Unit (List String))
    (fetchF : String → Option String) (keywords : List String) (k : String)
    (hk : k ∈ keywords) (hfail : searchF (k ++ " job") = Except.error ()) :
    dictGet (scrape_jobs true searchF fetchF keywords).results k = some []
    ∧ (∀ k2, k2 ∈ keywords →
        dictGet (scrape_jobs true searchF fetchF keywords).results k2
          = some (process_keyword searchF fetchF k2)) := by
  have hres : (scrape_jobs true searchF fetchF keywords).results
      = keywords.foldl (scrapeStep searchF fetchF) [] := by
    simp [scrape_jobs]
  have hget : ∀ k2, k2 ∈ keywords →
      dictGet (scrape_jobs true searchF fetchF keywords).results k2
        = some (process_keyword searchF fetchF k2) := by
    intro k2 hk2
    rw [hres, scrapeFold_get searchF fetchF keywords k2 [], if_pos hk2]
  have hpk : process_keyword searchF fetchF k = [] := by
    unfold process_keyword
    rw [hfail]
  refine ⟨?_, hget⟩
  rw [hget k hk, hpk]


/-- C5 witness: with a provider raising for Rust and succeeding for Go, the
run keeps an empty entry for Rust and still processes Go. -/
theorem C5_witness :
    dictGet (scrape_jobs true searchRG fetchRG ["Rust", "Go"]).results "Rust" = some []
    ∧ dictGet (scrape_jobs true searchRG fetchRG ["Rust", "Go"]).results "Go"
        = some ["http://go1"] := by
  have h := C5_search_failure_isolated searchRG fetchRG ["Rust", "Go"] "Rust"
    (by decide) (by rfl)
  exact ⟨h.1, (h.2 "Go" (by decide)).trans (by rfl)⟩

/-- C6: for a keyword of the set whose search yields the sequence us, the
keyword entry is exactly the filter of us by the acceptance test; a
successfully fetched URL is in the entry iff it was yielded and its lowered
page text has a hiring-signal term and is classified recent; a URL whose
fetch raises is never in the entry. -/
theorem C6_accept_characterization (searchF : String → Except Unit (List String))
    (fetchF : String → Option String) (keywords : List String) (k : String)
    (us : List String) (hk : k ∈ keywords) (hok : searchF (k ++ " job") = Except.ok us) :
    dictGet (scrape_jobs true searchF fetchF keywords).results k
      = some (us.filter (url_accepted fetchF))
    ∧ (∀ u t, fetchF u = some t →
        (u ∈ us.filter (url_accepted fetchF) ↔
          u ∈ us ∧
            ((hiring_signals.any (fun word => containsSub (pyLower t) word)
              && is_recent_job_posting (pyLower t)) = true)))
    ∧ (∀ u, fetchF u = none → u ∉ us.filter (url_accepted fetchF)) := by
  have hres : (scrape_jobs true searchF fetchF keywords).results
      = keywords.foldl (scrapeStep searchF fetchF) [] := by
    simp [scrape_jobs]
  refine ⟨?_, ?_, ?_⟩
  · rw [hres, scrapeFold_get searchF fetchF keywords k [], if_pos hk]
    unfold process_keyword
    rw [hok]
  · intro u t hut
    rw [List.mem_filter]
    have hacc : url_accepted fetchF u
        = (hiring_signals.any (fun word => containsSub (pyLower t) word)
            && is_recent_job_posting (pyLower t)) := by
      unfold url_accepted
      rw [hut]
    rw [hacc]
  · intro u hu
    rw [List.mem_filter]
    rintro ⟨-, hacc⟩
    unfold url_accepted at hacc
    rw [hu] at hacc
    simp at hacc

/-- C6 witness: five yielded URLs with fetches raising on the second and
fourth; the entry is exactly the first and third, and the failed URLs are
never in the output. -/
theorem C6_witness :
    dictGet (scrape_jobs true search5 fetch5 ["k"]).results "k" = some ["u1", "u3"]
    ∧ "u2" ∉ urls5.filter (url_accepted fetch5)
    ∧ "u4" ∉ urls5.filter (url_accepted fetch5) := by
  have h := C6_accept_characterization search5 fetch5 ["k"] "k" urls5 (by decide) (by rfl)
  exact ⟨h.1.trans (by rfl), h.2.2 "u2" (by rfl), h.2.2 "u4" (by rfl)⟩

/-- C8 as stated fails on the source: a provider that yields the same URL
twice for keyword go makes the accepted URL appear twice in that keyword
entry of the result map. -/
theorem C8_cex :
    dictGet (scrape_jobs true searchDup fetchHire ["go"]).results "go"
      = some ["http://u", "http://u"]
    ∧ ¬ (["http://u", "http://u"] : List String).Nodup := by
  exact ⟨by rfl, by decide⟩

/-- C8 (amended): provided the provider yields each URL at most once in a
keyword run, that keyword entry contains each URL at most once. -/
theorem C8_nodup_preserved (searchF : String → Except Unit (List String))
    (fetchF : String → Option String) (keywords : List String) (k : String)
    (us : List String) (hok : searchF (k ++ " job") = Except.ok us) (hnd : us.Nodup) :
    ∀ v, dictGet (scrape_jobs true searchF fetchF keywords).results k = some v →
      v.Nodup := by
  intro v hv
  have hres : (scrape_jobs true searchF fetchF keywords).results
      = keywords.foldl (scrapeStep searchF fetchF) [] := by
    simp [scrape_jobs]
  rw [hres, scrapeFold_get searchF fetchF keywords k []] at hv
  by_cases hk : k ∈ keywords
  · rw [if_pos hk] at hv
    have hveq : process_keyword searchF fetchF k = v := Option.some.inj hv
    rw [← hveq]
    unfold process_keyword
    rw [hok]
    exact List.Nodup.filter _ hnd
  · rw [if_neg hk] at hv
    simp [dictGet] at hv

/-- C8 witness: a concrete duplicate-free yield stays duplicate-free. -/
theorem C8_witness : (["http://go1"] : List String).Nodup := by
  exact C8_nodup_preserved searchRG fetchRG ["Go"] "Go" ["http://go1"]
    (by rfl) (by decide) ["http://go1"] (by rfl)

/-- C3: for a document whose declared extension is pdf (resp. docx) and
whose decode raises, the endpoint returns an error response immediately
with the PDF-specific (resp. DOCX-specific) message, for every pipeline
environment, so the pipeline is not invoked; for any other extension a
decode failure escapes uncaught rather than producing a response, and the
two parse messages are distinct. -/
theorem C3_decode_errors (env : Env) (filename : String)
    (pdfParse docxParse rawDecode : Option String) :
    (file_ext filename = "pdf" →
      recommend_jobs env filename none docxParse rawDecode
        = Except.ok { status := "error", message := "Failed to parse PDF content." })
    ∧ (file_ext filename = "docx" →
      recommend_jobs env filename pdfParse none rawDecode
        = Except.ok { status := "error", message := "Failed to parse DOCX content." })
    ∧ (file_ext filename ≠ "pdf" → file_ext filename ≠ "docx" →
      recommend_jobs env filename pdfParse docxParse none = Except.error ())
    ∧ ("Failed to parse PDF content." : String) ≠ "Failed to parse DOCX content." := by
  refine ⟨?_, ?_, ?_, by decide⟩
  · intro h
    simp [recommend_jobs, h]
  · intro h
    simp [recommend_jobs, h]
  · intro h1 h2
    simp [recommend_jobs, h1, h2]

/-- C3 witness: concrete pdf and docx uploads whose decode raises. -/
theorem C3_witness :
    recommend_jobs envOk "resume.pdf" none none none
      = Except.ok { status := "error", message := "Failed to parse PDF content." }
    ∧ recommend_jobs envOk "resume.docx" none none none
      = Except.ok { status := "error", message := "Failed to parse DOCX content." } := by
  exact ⟨(C3_decode_errors envOk "resume.pdf" none none none).1 (by rfl),
         (C3_decode_errors envOk "resume.docx" none none none).2.1 (by rfl)⟩

/-- C1 as stated fails on the source: with the NLP capability available,
the empty resume text, which yields no entities, extracts the empty
keyword list. -/
theorem C1_cex : extract_keywords_from_resume true [] "" = [] := by rfl

/-- C1 (amended): when the entity-identification capability is unavailable,
Extract returns the fixed two-element fallback list, which is never empty;
in normal mode the result can be empty, as the counterexample shows. -/
theorem C1_fallback_nonempty (ents : List Ent) (resume_text : String) :
    extract_keywords_from_resume false ents resume_text = ["Fallback", "NLP Error"]
    ∧ extract_keywords_from_resume false ents resume_text ≠ [] := by
  refine ⟨rfl, ?_⟩
  intro h
  simp [extract_keywords_from_resume] at h

/-- The early-return control flow of the classifier collapses to a single
disjunction of the phrase tests and the day-count loop. -/
theorem is_recent_or_form (text : String) :
    is_recent_job_posting text
      = (containsSub (pyLower text) "just posted" || containsSub (pyLower text) "new" ||
          containsSub (pyLower text) "24 hours" ||
          (List.range' 1 7).any (fun i =>
            containsSub (pyLower text) (toString i ++ " day") ||
            containsSub (pyLower text) (toString i ++ "d"))) := by
  unfold is_recent_job_posting
  cases h1 : containsSub (pyLower text) "just posted" <;>
    cases h2 : containsSub (pyLower text) "new" <;>
      cases h3 : containsSub (pyLower text) "24 hours" <;>
        cases h4 : (List.range' 1 7).any (fun i =>
          containsSub (pyLower text) (toString i ++ " day") ||
          containsSub (pyLower text) (toString i ++ "d")) <;>
          simp [h1, h2, h3, h4]

/-- C4: the classifier holds exactly when the lowered text contains one of
the three fixed phrases or a day-count pattern for some n in 1..7, in
either the spaced or the compact form; plus the four spec examples. -/
theorem C4_is_recent_characterization :
    (∀ text : String,
      is_recent_job_posting text = true ↔
        (containsSub (pyLower text) "just posted" = true ∨
         containsSub (pyLower text) "new" = true ∨
         containsSub (pyLower text) "24 hours" = true ∨
         ∃ n, 1 ≤ n ∧ n ≤ 7 ∧
           (containsSub (pyLower text) (toString n ++ " day") = true ∨
            containsSub (pyLower text) (toString n ++ "d") = true)))
    ∧ is_recent_job_posting "Just Posted 2 days ago" = true
    ∧ is_recent_job_posting "Posted last month" = false
    ∧ is_recent_job_posting "3d ago, apply now" = true
    ∧ is_recent_job_posting "8 days ago" = false := by
  refine ⟨?_, by rfl, by rfl, by rfl, by rfl⟩
  intro text
  rw [is_recent_or_form]
  simp only [Bool.or_eq_true, List.any_eq_true, List.mem_range']
  constructor
  · rintro (((h | h) | h) | ⟨m, ⟨i, hi, rfl⟩, hp⟩)
    · exact Or.inl h
    · exact Or.inr (Or.inl h)
    · exact Or.inr (Or.inr (Or.inl h))
    · exact Or.inr (Or.inr (Or.inr ⟨1 + 1 * i, by omega, by omega, hp⟩))
  · rintro (h | h | h | ⟨n, hn1, hn7, hp⟩)
    · exact Or.inl (Or.inl (Or.inl h))
    · exact Or.inl (Or.inl (Or.inr h))
    · exact Or.inl (Or.inr h)
    · exact Or.inr ⟨n, ⟨n - 1, by omega, by omega⟩, hp⟩

/-- C4 witness: the characterization applied at the compact-form example. -/
theorem C4_witness : is_recent_job_posting "3d ago, apply now" = true := by
  exact (C4_is_recent_characterization.1 "3d ago, apply now").mpr
    (Or.inr (Or.inr (Or.inr ⟨3, by decide, by decide, Or.inr (by decide)⟩)))

/-- C10: any text containing a digit 1..7 immediately followed by " day"
or by "d" is classified recent, even when the day count is outside the
1..7 window or the text is not a date at all. -/
theorem C10_day_pattern (text : String) (n : Nat) (h1 : 1 ≤ n) (h7 : n ≤ 7)
    (h : containsSub text (toString n ++ " day") = true ∨
         containsSub text (toString n ++ "d") = true) :
    is_recent_job_posting text = true := by
  rw [is_recent_or_form]
  have hmem : n ∈ List.range' 1 7 := by
    rw [List.mem_range']
    exact ⟨n - 1, by omega, by omega⟩
  have hfix : ((toString n ++ " day") : String).data.map Char.toLower
      = ((toString n ++ " day") : String).data ∧
      ((toString n ++ "d") : String).data.map Char.toLower
      = ((toString n ++ "d") : String).data := by
    interval_cases n <;> exact ⟨by decide, by decide⟩
  have hl : containsSub (pyLower text) (toString n ++ " day") = true ∨
      containsSub (pyLower text) (toString n ++ "d") = true := by
    rcases h with h | h
    · exact Or.inl (containsSub_pyLower text _ hfix.1 h)
    · exact Or.inr (containsSub_pyLower text _ hfix.2 h)
  have hany : (List.range' 1 7).any (fun i =>
      containsSub (pyLower text) (toString i ++ " day") ||
      containsSub (pyLower text) (toString i ++ "d")) = true := by
    rw [List.any_eq_true]
    refine ⟨n, hmem, ?_⟩
    rw [Bool.or_eq_true]
    exact hl
  simp [hany]

/-- C10 witness: multi-digit day counts whose last digit is 1..7 and a
non-date text with a compact pattern are all classified recent. -/
theorem C10_witness :
    is_recent_job_posting "13 days ago" = true
    ∧ is_recent_job_posting "27 days ago" = true
    ∧ is_recent_job_posting "3d printing" = true := by
  exact ⟨C10_day_pattern "13 days ago" 3 (by decide) (by decide) (Or.inl (by decide)),
         C10_day_pattern "27 days ago" 7 (by decide) (by decide) (Or.inl (by decide)),
         C10_day_pattern "3d printing" 3 (by decide) (by decide) (Or.inr (by decide))⟩

/-! Helper lemmas relating the split-based length filter to the spec
wording about internal whitespace. -/

theorem pyTokens_eq_nil_iff (cs : List Char) :
    pyTokens cs = [] ↔ ∀ c ∈ cs, isWS c = true := by
  induction cs using pyTokens.induct with
  | case1 => simp [pyTokens]
  | case2 c cs hws ih =>
    rw [show pyTokens (c :: cs) = pyTokens cs by simp [pyTokens, hws]]
    rw [ih]
    constructor
    · intro h d hd
      rcases List.mem_cons.mp hd with rfl | hd2
      · exact hws
      · exact h d hd2
    · intro h d hd
      exact h d (List.mem_cons.mpr (Or.inr hd))
  | case3 c cs hnws _ =>
    rw [show pyTokens (c :: cs)
        = (c :: cs.takeWhile (fun d => !isWS d))
          :: pyTokens (cs.dropWhile (fun d => !isWS d)) by simp [pyTokens, hnws]]
    simp only [Bool.not_eq_true] at hnws
    constructor
    · intro h
      cases h
    · intro h
      rw [h c (List.mem_cons.mpr (Or.inl rfl))] at hnws
      cases hnws

theorem mem_dropWhile_of_bad (xs : List Char) (w : Char) (r : List Char) (b : Char)
    (hw : isWS w = true) (hb : b ∈ w :: r) :
    b ∈ (xs ++ w :: r).dropWhile (fun d => !isWS d) := by
  induction xs with
  | nil =>
    rw [List.nil_append, List.dropWhile_cons]
    simp only [hw, Bool.not_true]
    simpa using hb
  | cons x xs ih =>
    rw [List.cons_append, List.dropWhile_cons]
    by_cases hx : (!isWS x) = true
    · simpa [hx] using ih
    · simp only [hx, if_neg]
      refine List.mem_cons.mpr (Or.inr ?_)
      rw [List.mem_append]
      exact Or.inr hb

theorem head_dropWhile_bad (cs : List Char) (w : Char) (r : List Char)
    (h : cs.dropWhile (fun d => !isWS d) = w :: r) : isWS w = true := by
  induction cs with
  | nil => cases h
  | cons x cs ih =>
    rw [List.dropWhile_cons] at h
    by_cases hx : (!isWS x) = true
    · rw [if_pos hx] at h
      exact ih h
    · rw [if_neg hx] at h
      injection h with h1 h2
      subst h1
      simpa using hx

theorem hiw_cons_ws (c : Char) (cs : List Char) (hc : isWS c = true) :
    HasInternalWS (c :: cs) ↔ HasInternalWS cs := by
  constructor
  · rintro ⟨l, w, r, heq, hw, ⟨a, hal, hans⟩, hr⟩
    cases l with
    | nil =>
      cases hal
    | cons x l2 =>
      rw [List.cons_append] at heq
      injection heq with h1 h2
      subst h1
      rcases List.mem_cons.mp hal with rfl | hal2
      · rw [hans] at hc
        cases hc
      · exact ⟨l2, w, r, h2, hw, ⟨a, hal2, hans⟩, hr⟩
  · rintro ⟨l, w, r, heq, hw, ⟨a, hal, hans⟩, hr⟩
    exact ⟨c :: l, w, r, by rw [heq, List.cons_append], hw,
      ⟨a, List.mem_cons.mpr (Or.inr hal), hans⟩, hr⟩

theorem hiw_cons_nonws (c : Char) (cs : List Char) (hc : isWS c = false) :
    HasInternalWS (c :: cs) ↔
      ∃ b ∈ cs.dropWhile (fun d => !isWS d), isWS b = false := by
  constructor
  · rintro ⟨l, w, r, heq, hw, ha, ⟨b, hbr, hbns⟩⟩
    cases l with
    | nil =>
      rw [List.nil_append] at heq
      injection heq with h1 h2
      subst h1
      rw [hw] at hc
      cases hc
    | cons x l2 =>
      rw [List.cons_append] at heq
      injection heq with h1 h2
      subst h2
      exact ⟨b, mem_dropWhile_of_bad l2 w r b hw (List.mem_cons.mpr (Or.inr hbr)), hbns⟩
  · rintro ⟨b, hbmem, hbns⟩
    rcases hrest : cs.dropWhile (fun d => !isWS d) with _ | ⟨w, r0⟩
    · rw [hrest] at hbmem
      cases hbmem
    · have hw : isWS w = true := head_dropWhile_bad cs w r0 hrest
      have hcs : cs = cs.takeWhile (fun d => !isWS d) ++ w :: r0 := by
        rw [← hrest, List.takeWhile_append_dropWhile]
      rw [hrest] at hbmem
      have hbr0 : b ∈ r0 := by
        rcases List.mem_cons.mp hbmem with rfl | h2
        · rw [hbns] at hw
          cases hw
        · exact h2
      refine ⟨c :: cs.takeWhile (fun d => !isWS d), w, r0, ?_, hw,
        ⟨c, List.mem_cons.mpr (Or.inl rfl), hc⟩, ⟨b, hbr0, hbns⟩⟩
      rw [List.cons_append, ← hcs]

theorem one_lt_pyTokens_iff (cs : List Char) :
    1 < (pyTokens cs).length ↔ HasInternalWS cs := by
  induction cs using pyTokens.induct with
  | case1 =>
    simp only [pyTokens, List.length_nil]
    constructor
    · intro h
      cases h
    · rintro ⟨l, w, r, heq, -, -, -⟩
      cases l <;> cases heq
  | case2 c cs hws ih =>
    rw [show pyTokens (c :: cs) = pyTokens cs by simp [pyTokens, hws]]
    rw [hiw_cons_ws c cs hws]
    exact ih
  | case3 c cs hnws _ =>
    have hlen : (pyTokens (c :: cs)).length
        = (pyTokens (cs.dropWhile (fun d => !isWS d))).length + 1 := by
      rw [show pyTokens (c :: cs)
          = (c :: cs.takeWhile (fun d => !isWS d))
            :: pyTokens (cs.dropWhile (fun d => !isWS d)) by simp [pyTokens, hnws]]
      simp
    have hc : isWS c = false := by
      simpa using hnws
    rw [hiw_cons_nonws c cs hc]
    rw [show (1 < (pyTokens (c :: cs)).length) =
        (1 < (pyTokens (cs.dropWhile (fun d => !isWS d))).length + 1) by rw [hlen]]
    constructor
    · intro h
      have hne : pyTokens (cs.dropWhile (fun d => !isWS d)) ≠ [] := by
        intro h0
        rw [h0] at h
        simp at h
      rw [Ne, pyTokens_eq_nil_iff] at hne
      push_neg at hne
      obtain ⟨b, hbmem, hbne⟩ := hne
      exact ⟨b, hbmem, by simpa using hbne⟩
    · rintro ⟨b, hbmem, hbns⟩
      have hne : pyTokens (cs.dropWhile (fun d => !isWS d)) ≠ [] := by
        rw [Ne, pyTokens_eq_nil_iff]
        intro hall
        rw [hall b hbmem] at hbns
        cases hbns
      have := List.length_pos.mpr hne
      omega

/-- C7 as stated fails on the source: the curated skill SQL occurs in the
resume text case-insensitively, yet it is not in the final result of
Extract, because the final length filter discards it. -/
theorem C7_cex :
    "SQL" ∈ tech_skills
    ∧ containsSub (pyLower "I know SQL") (pyLower "SQL") = true
    ∧ "SQL" ∉ extract_keywords_from_resume true [] "I know SQL" := by
  refine ⟨by decide, by decide, ?_⟩
  intro hmem
  have hext : extract_keywords_from_resume true [] "I know SQL"
      = (all_keywords [] "I know SQL").filter keyword_filter := by
    unfold extract_keywords_from_resume
    simp
  have hak : all_keywords [] "I know SQL" = ["SQL"] := by decide
  have hpt : pyTokens "SQL".data = [['S', 'Q', 'L']] := by
    simp [pyTokens, isWS, Char.isWhitespace]
  have hkf : keyword_filter "SQL" = false := by
    unfold keyword_filter
    rw [hpt]
    decide
  rw [hext, hak, List.mem_filter, hkf] at hmem
  simp at hmem

/-- C7 (amended): a curated skill enters the scanned skill set iff it
occurs case-insensitively as a substring of the resume text; the final
keyword set then keeps a member of the union exactly when it is not both
of length at most 3 and free of internal whitespace. -/
theorem C7_staged_filter :
    (∀ (resume_text skill : String),
      skill ∈ found_skills resume_text ↔
        skill ∈ tech_skills ∧ containsSub (pyLower resume_text) (pyLower skill) = true)
    ∧ (∀ (ents : List Ent) (resume_text : String) (kw : String),
      kw ∈ extract_keywords_from_resume true ents resume_text ↔
        kw ∈ all_keywords ents resume_text
          ∧ ¬ (kw.length ≤ 3 ∧ ¬ HasInternalWS kw.data)) := by
  constructor
  · intro resume_text skill
    unfold found_skills
    rw [List.mem_filter]
  · intro ents resume_text kw
    have hext : extract_keywords_from_resume true ents resume_text
        = (all_keywords ents resume_text).filter keyword_filter := by
      unfold extract_keywords_from_resume
      simp
    rw [hext, List.mem_filter]
    have hkf : keyword_filter kw = true ↔
        (HasInternalWS kw.data ∨ 3 < kw.length) := by
      unfold keyword_filter
      rw [Bool.or_eq_true, decide_eq_true_iff, decide_eq_true_iff,
        one_lt_pyTokens_iff]
    rw [hkf]
    constructor
    · rintro ⟨hmem, h | h⟩
      · exact ⟨hmem, fun h2 => h2.2 h⟩
      · exact ⟨hmem, fun h2 => by omega⟩
    · rintro ⟨hmem, hno⟩
      refine ⟨hmem, ?_⟩
      by_cases hiw : HasInternalWS kw.data
      · exact Or.inl hiw
      · refine Or.inr ?_
        by_cases hlen : kw.length ≤ 3
        · exact absurd ⟨hlen, hiw⟩ hno
        · omega

/-- C7 witness: a long-enough skill occurring in the text is kept by the
final filter. -/
theorem C7_witness : "Python" ∈ extract_keywords_from_resume true [] "I use python daily" := by
  refine (C7_staged_filter.2 [] "I use python daily" "Python").mpr ⟨by decide, ?_⟩
  rintro ⟨h3, -⟩
  exact absurd h3 (by decide)
